import Mathlib

/-!
Verification of the multi-dimensional partition-key subsystem and the
data-version staleness resolver described by the repository's specification,
against the behavior pinned down by the repository's test suite
(`test_multi_partitions.py`, `test_data_versions.py`).

The Python implementation itself is not part of the reviewed tree; the
definitions below are therefore modelled from the specification, with the
repository's tests taken as the authority wherever they pin a behavior
(dimension ordering, pagination traces, threshold boundaries, stale-cause
comparison).
-/

namespace Dagster

/-- Modelled from the spec: a single named partition dimension, reduced to its
contract `ordered_keys() -> sequence<string>`: a name plus the current ordered
key list (static lists verbatim; time-window and dynamic dimensions enter this
model through the ordered key list they enumerate to). -/
structure Dimension where
  name : String
  keys : List String
  deriving DecidableEq, Repr

/-- Modelled from the spec: a multi-partitions definition, holding its
dimensions in the fixed canonical dimension order used for key strings and
cartesian enumeration. -/
structure MultiPartitionsDefinition where
  dims : List Dimension
  deriving DecidableEq, Repr

/-- Lexicographic comparison of character lists by code point. -/
def charListLt : List Char → List Char → Bool
  | [], [] => false
  | [], _ :: _ => true
  | _ :: _, [] => false
  | a :: as, b :: bs =>
    if a.val < b.val then true
    else if b.val < a.val then false
    else charListLt as bs

/-- Lexicographic comparison of strings by code point. -/
def strLt (a b : String) : Bool :=
  charListLt a.data b.data

/-- Stable insertion of a dimension into a name-sorted dimension list. -/
def insertDim (d : Dimension) : List Dimension → List Dimension
  | [] => [d]
  | e :: es => if strLt d.name e.name then d :: e :: es else e :: insertDim d es

/-- Stable insertion sort of dimensions by name. -/
def sortDimensions : List Dimension → List Dimension
  | [] => []
  | d :: ds => insertDim d (sortDimensions ds)

/-- Modelled from the spec and pinned by the repository's tests
(`test_multi_static_partitions`, `test_dynamic_dimension_in_multipartitioned_asset`):
construction of a `MultiPartitionsDefinition` from the insertion-ordered
dimension mapping sorts the dimensions lexicographically by name to obtain the
fixed canonical dimension order. -/
def mkMultiPartitionsDefinition (insertion : List Dimension) : MultiPartitionsDefinition :=
  ⟨sortDimensions insertion⟩

/-- The ordered key lists of the dimensions, in canonical dimension order. -/
def dimLists (d : MultiPartitionsDefinition) : List (List String) :=
  d.dims.map Dimension.keys

/-- A composite key is one value per dimension, in canonical dimension order. -/
abbrev CompositeKey := List String

/-- Canonical string encoding of a composite key: values joined by the
reserved separator in canonical dimension order. -/
def keyString (k : CompositeKey) : String :=
  String.intercalate "|" k

/-- Cartesian product of the per-dimension key lists, first list varying
slowest (the outer dimension). -/
def cartProd : List (List String) → List CompositeKey
  | [] => [[]]
  | l :: ls => l.flatMap (fun x => (cartProd ls).map (fun t => x :: t))

/-- Modelled from the spec: `get_partition_keys` enumerates the full cross
product of all dimensions in the definition's fixed dimension order, outer
dimension varying slowest. -/
def get_partition_keys (d : MultiPartitionsDefinition) : List CompositeKey :=
  cartProd (dimLists d)

/-- Canonical strings of all partition keys, in enumeration order. -/
def get_partition_key_strings (d : MultiPartitionsDefinition) : List String :=
  (get_partition_keys d).map keyString

/-- Product of the dimension sizes: the mixed-radix total. -/
def prodSizes : List (List String) → Nat
  | [] => 1
  | l :: ls => l.length * prodSizes ls

/-- Total number of composite keys of a definition. -/
def totalKeys (d : MultiPartitionsDefinition) : Nat :=
  prodSizes (dimLists d)

/-- Modelled from the spec: standard mixed-radix decoding of an ordinal index
into a composite key, most-significant digit first (the first dimension in
canonical order). -/
def decodeKey : List (List String) → Nat → CompositeKey
  | [], _ => []
  | l :: ls, n => l.getD (n / prodSizes ls) "" :: decodeKey ls (n % prodSizes ls)

theorem cartProd_length (ls : List (List String)) :
    (cartProd ls).length = prodSizes ls := by
  induction ls with
  | nil => rfl
  | cons l ls ih =>
    simp only [cartProd, prodSizes, List.length_flatMap]
    have hconst : ∀ x ∈ l,
        (List.length ∘ fun x => List.map (fun t => x :: t) (cartProd ls)) x = prodSizes ls := by
      intro x _
      simp [ih]
    rw [List.map_congr_left hconst, List.map_const', List.sum_replicate, smul_eq_mul]

/-- Enumerating positions of a list and reading each position back
reconstructs the list. -/
theorem map_getD_range (l : List String) (dflt : String) :
    (List.range l.length).map (fun i => l.getD i dflt) = l := by
  induction l with
  | nil => rfl
  | cons x xs ih =>
    rw [List.length_cons, List.range_succ_eq_map, List.map_cons, List.map_map]
    refine congrArg (x :: ·) ?_
    calc List.map ((fun i => (x :: xs).getD i dflt) ∘ Nat.succ) (List.range xs.length)
        = List.map (fun i => xs.getD i dflt) (List.range xs.length) := by
          refine List.map_congr_left ?_
          intro i _
          simp [List.getD_cons_succ, Function.comp]
      _ = xs := ih

/-- Splitting the range of a product into blocks of the inner size. -/
theorem range_mul_flatMap (g : Nat → CompositeKey) (k p : Nat) :
    (List.range (k * p)).map g =
      (List.range k).flatMap (fun i => (List.range p).map (fun j => g (i * p + j))) := by
  induction k with
  | zero => simp
  | succ k ih =>
    have hm : (k + 1) * p = k * p + p := by ring
    rw [hm, List.range_add, List.map_append, ih, List.range_succ, List.flatMap_append]
    simp [List.map_map, Function.comp]

/-- Mixed-radix decoding of the full ordinal range enumerates exactly the
cartesian product, in the same order. -/
theorem range_map_decodeKey (ls : List (List String)) :
    (List.range (prodSizes ls)).map (decodeKey ls) = cartProd ls := by
  induction ls with
  | nil => rfl
  | cons l ls ih =>
    by_cases hp : prodSizes ls = 0
    · have hlen : (cartProd ls).length = 0 := by rw [cartProd_length, hp]
      have hnil : cartProd ls = [] := List.length_eq_zero.mp hlen
      simp [prodSizes, hp, cartProd, hnil]
    · have hppos : 0 < prodSizes ls := Nat.pos_of_ne_zero hp
      have h1 : (List.range (l.length * prodSizes ls)).map (decodeKey (l :: ls)) =
          (List.range l.length).flatMap
            (fun i => (List.range (prodSizes ls)).map
              (fun j => decodeKey (l :: ls) (i * prodSizes ls + j))) :=
        range_mul_flatMap _ _ _
      have h2 : ∀ i, ∀ j ∈ List.range (prodSizes ls),
          decodeKey (l :: ls) (i * prodSizes ls + j) =
            l.getD i "" :: decodeKey ls j := by
        intro i j hj
        have hjlt : j < prodSizes ls := List.mem_range.mp hj
        have hdiv : (i * prodSizes ls + j) / prodSizes ls = i := by
          rw [Nat.mul_comm i, Nat.mul_add_div hppos, Nat.div_eq_of_lt hjlt]
          omega
        have hmod : (i * prodSizes ls + j) % prodSizes ls = j := by
          rw [Nat.mul_comm i, Nat.mul_add_mod]
          exact Nat.mod_eq_of_lt hjlt
        simp [decodeKey, hdiv, hmod]
      have h3 : ∀ i, (List.range (prodSizes ls)).map
            (fun j => decodeKey (l :: ls) (i * prodSizes ls + j)) =
          (cartProd ls).map (fun t => l.getD i "" :: t) := by
        intro i
        rw [List.map_congr_left (h2 i), ← ih, List.map_map]
        rfl
      have h4 : (List.range l.length).flatMap
            (fun i => (cartProd ls).map (fun t => l.getD i "" :: t)) =
          l.flatMap (fun x => (cartProd ls).map (fun t => x :: t)) := by
        conv_rhs => rw [← map_getD_range l ""]
        rw [List.flatMap_map]
      calc (List.range (prodSizes (l :: ls))).map (decodeKey (l :: ls))
          = (List.range (l.length * prodSizes ls)).map (decodeKey (l :: ls)) := rfl
        _ = (List.range l.length).flatMap
              (fun i => (List.range (prodSizes ls)).map
                (fun j => decodeKey (l :: ls) (i * prodSizes ls + j))) := h1
        _ = (List.range l.length).flatMap
              (fun i => (cartProd ls).map (fun t => l.getD i "" :: t)) := by
              exact List.flatMap_congr (fun i _ => h3 i)
        _ = l.flatMap (fun x => (cartProd ls).map (fun t => x :: t)) := h4
        _ = cartProd (l :: ls) := rfl

/-- The cartesian product of duplicate-free dimension key lists has no
duplicate composite keys. -/
theorem cartProd_nodup (ls : List (List String)) (h : ∀ l ∈ ls, l.Nodup) :
    (cartProd ls).Nodup := by
  induction ls with
  | nil => simp [cartProd]
  | cons l ls ih =>
    have hl : l.Nodup := h l (by simp)
    have hls : (cartProd ls).Nodup := ih (fun l' hl' => h l' (by simp [hl']))
    rw [cartProd, List.nodup_flatMap]
    constructor
    · intro x _
      exact hls.map (fun a b hab => by injection hab)
    · have : l.Pairwise (· ≠ ·) := hl
      refine this.imp ?_
      intro a b hne y hya hyb
      simp only [List.mem_map] at hya hyb
      obtain ⟨t1, _, ht1⟩ := hya
      obtain ⟨t2, _, ht2⟩ := hyb
      rw [← ht1] at ht2
      injection ht2 with hh _
      exact hne hh.symm

/-- Result of one paginated call: the page of composite keys, the new opaque
cursor, and the has-more flag. -/
structure PaginatedResults where
  results : List CompositeKey
  cursor : Option Nat
  has_more : Bool
  deriving DecidableEq, Repr

/-- First ordinal of an ascending page: position immediately after the
cursor's decoded ordinal, or 0 when the cursor is absent. -/
def ascStart : Option Nat → Nat
  | none => 0
  | some c => c + 1

/-- Last valid ordinal of a descending page's start: `total - 1` when the
cursor is absent, the position immediately before the cursor's decoded
ordinal otherwise; `none` once the downward walk is exhausted. -/
def descStart (total : Nat) : Option Nat → Option Nat
  | none => if total = 0 then none else some (total - 1)
  | some c => if c = 0 then none else some (c - 1)

/-- Modelled from the spec: `get_paginated_partition_keys` decodes up to
`limit` consecutive mixed-radix ordinals starting after the cursor (ascending)
or before it (descending), stopping early at the bounds of `[0, total)`; with
`total = 0` it returns zero results and `has_more = false` immediately.  The
opaque cursor is modelled as the ordinal of the last emitted key. -/
def get_paginated_partition_keys (d : MultiPartitionsDefinition) (limit : Nat)
    (ascending : Bool) (cursor : Option Nat) : PaginatedResults :=
  let total := totalKeys d
  if total = 0 then ⟨[], cursor, false⟩
  else if ascending then
    let start := ascStart cursor
    let count := min limit (total - start)
    let idxs := List.range' start count
    ⟨idxs.map (decodeKey (dimLists d)),
     if count = 0 then cursor else some (start + count - 1),
     decide (start + limit < total)⟩
  else
    match descStart total cursor with
    | none => ⟨[], cursor, false⟩
    | some s =>
      let count := min limit (s + 1)
      let idxs := (List.range' (s + 1 - count) count).reverse
      ⟨idxs.map (decodeKey (dimLists d)),
       if count = 0 then cursor else some (s + 1 - count),
       decide (limit ≤ s)⟩

/-- The pagination loop of the tests: repeatedly call
`get_paginated_partition_keys`, feed each returned cursor into the next call,
and accumulate pages until `has_more = false`.  `fuel` bounds the number of
calls; every claim instantiates it large enough that it is never exhausted. -/
def accumPages (d : MultiPartitionsDefinition) (limit : Nat) (ascending : Bool) :
    Nat → Option Nat → List CompositeKey
  | 0, _ => []
  | fuel + 1, cursor =>
    let p := get_paginated_partition_keys d limit ascending cursor
    p.results ++ (if p.has_more then accumPages d limit ascending fuel p.cursor else [])

/-- Full accumulation of a pagination session started with no cursor. -/
def paginateAll (d : MultiPartitionsDefinition) (limit : Nat) (ascending : Bool) :
    List CompositeKey :=
  accumPages d limit ascending (totalKeys d + 1) none

/-- A paginated call over an empty cross product returns nothing. -/
theorem page_zero (d : MultiPartitionsDefinition) (L : Nat) (asc : Bool) (cursor : Option Nat)
    (h0 : totalKeys d = 0) :
    get_paginated_partition_keys d L asc cursor = ⟨[], cursor, false⟩ := by
  simp [get_paginated_partition_keys, h0]

/-- Shape of one ascending page over a nonempty cross product. -/
theorem page_asc (d : MultiPartitionsDefinition) (L : Nat) (cursor : Option Nat)
    (h0 : totalKeys d ≠ 0) :
    get_paginated_partition_keys d L true cursor =
      ⟨(List.range' (ascStart cursor) (min L (totalKeys d - ascStart cursor))).map
          (decodeKey (dimLists d)),
       if min L (totalKeys d - ascStart cursor) = 0 then cursor
       else some (ascStart cursor + min L (totalKeys d - ascStart cursor) - 1),
       decide (ascStart cursor + L < totalKeys d)⟩ := by
  simp [get_paginated_partition_keys, h0]

/-- Shape of one descending page over a nonempty cross product when the
downward walk is not yet exhausted. -/
theorem page_desc_some (d : MultiPartitionsDefinition) (L : Nat) (cursor : Option Nat)
    (s : Nat) (h0 : totalKeys d ≠ 0) (hds : descStart (totalKeys d) cursor = some s) :
    get_paginated_partition_keys d L false cursor =
      ⟨((List.range' (s + 1 - min L (s + 1)) (min L (s + 1))).reverse).map
          (decodeKey (dimLists d)),
       if min L (s + 1) = 0 then cursor else some (s + 1 - min L (s + 1)),
       decide (L ≤ s)⟩ := by
  simp [get_paginated_partition_keys, h0, hds]

/-- A descending page after exhaustion returns nothing. -/
theorem page_desc_none (d : MultiPartitionsDefinition) (L : Nat) (cursor : Option Nat)
    (h0 : totalKeys d ≠ 0) (hds : descStart (totalKeys d) cursor = none) :
    get_paginated_partition_keys d L false cursor = ⟨[], cursor, false⟩ := by
  simp [get_paginated_partition_keys, h0, hds]

theorem accumPages_asc (d : MultiPartitionsDefinition) (L : Nat) (hL : 0 < L) :
    ∀ fuel cursor, totalKeys d - ascStart cursor ≤ fuel * L →
      accumPages d L true fuel cursor =
        (List.range' (ascStart cursor) (totalKeys d - ascStart cursor)).map
          (decodeKey (dimLists d)) := by
  intro fuel
  induction fuel with
  | zero =>
    intro cursor hfuel
    have h : totalKeys d - ascStart cursor = 0 := by omega
    simp [accumPages, h]
  | succ fuel ih =>
    intro cursor hfuel
    by_cases h0 : totalKeys d = 0
    · rw [accumPages, page_zero d L true cursor h0]
      simp [h0]
    · rw [accumPages, page_asc d L cursor h0]
      by_cases hmore : ascStart cursor + L < totalKeys d
      · have hcount : min L (totalKeys d - ascStart cursor) = L := by omega
        have hc0 : ¬(L = 0) := by omega
        rw [hcount, if_neg hc0, decide_eq_true hmore]
        simp only [if_pos rfl, if_true]
        have hnext : ascStart (some (ascStart cursor + L - 1)) = ascStart cursor + L := by
          simp only [ascStart]
          omega
        have hmul : (fuel + 1) * L = fuel * L + L := Nat.succ_mul fuel L
        have hprem : totalKeys d - ascStart (some (ascStart cursor + L - 1)) ≤ fuel * L := by
          rw [hnext]
          omega
        rw [ih _ hprem, hnext, ← List.map_append]
        refine congrArg _ ?_
        have happ := List.range'_append (ascStart cursor) L
          (totalKeys d - (ascStart cursor + L)) 1
        simp only [Nat.one_mul] at happ
        rw [happ]
        have harith : totalKeys d - (ascStart cursor + L) + L = totalKeys d - ascStart cursor := by
          omega
        rw [harith]
      · have hcount : min L (totalKeys d - ascStart cursor) = totalKeys d - ascStart cursor := by
          omega
        rw [hcount, decide_eq_false hmore]
        simp

theorem accumPages_desc (d : MultiPartitionsDefinition) (L : Nat) (hL : 0 < L) :
    ∀ fuel cursor s, totalKeys d ≠ 0 → descStart (totalKeys d) cursor = some s →
      s + 1 ≤ fuel * L →
      accumPages d L false fuel cursor =
        ((List.range (s + 1)).reverse).map (decodeKey (dimLists d)) := by
  intro fuel
  induction fuel with
  | zero =>
    intro cursor s h0 hds hfuel
    omega
  | succ fuel ih =>
    intro cursor s h0 hds hfuel
    rw [accumPages, page_desc_some d L cursor s h0 hds]
    by_cases hmore : L ≤ s
    · have hcount : min L (s + 1) = L := by omega
      have hc0 : ¬(L = 0) := by omega
      rw [hcount, if_neg hc0, decide_eq_true hmore]
      simp only [if_pos rfl, if_true]
      have hnext : descStart (totalKeys d) (some (s + 1 - L)) = some (s - L) := by
        rw [descStart, if_neg (by omega)]
        refine congrArg _ ?_
        omega
      have hmul : (fuel + 1) * L = fuel * L + L := Nat.succ_mul fuel L
      have hrec := ih (some (s + 1 - L)) (s - L) h0 hnext (by omega)
      rw [hrec, ← List.map_append]
      refine congrArg _ ?_
      rw [← List.reverse_append]
      refine congrArg _ ?_
      have happ := List.range'_append 0 (s - L + 1) L 1
      simp only [Nat.one_mul, Nat.zero_add] at happ
      have h1 : s + 1 - L = s - L + 1 := by omega
      rw [h1, List.range_eq_range', List.range_eq_range', happ]
      have harith : L + (s - L + 1) = s + 1 := by omega
      rw [harith]
    · have hcount : min L (s + 1) = s + 1 := by omega
      have hc0 : ¬(s + 1 = 0) := by omega
      rw [hcount, decide_eq_false hmore]
      simp [List.range_eq_range']

theorem fuel_big (T L : Nat) (hL : 0 < L) : T ≤ (T + 1) * L := by
  have h := Nat.mul_le_mul_left (T + 1) hL
  have h1 : (T + 1) * 1 = T + 1 := Nat.mul_one _
  omega

/-- Ascending accumulation until `has_more = false` reproduces the full
cartesian enumeration, in order. -/
theorem paginateAll_asc_eq (d : MultiPartitionsDefinition) (L : Nat) (hL : 0 < L) :
    paginateAll d L true = get_partition_keys d := by
  unfold paginateAll
  have hfuel : totalKeys d - ascStart none ≤ (totalKeys d + 1) * L := by
    have := fuel_big (totalKeys d) L hL
    simp only [ascStart]
    omega
  rw [accumPages_asc d L hL (totalKeys d + 1) none hfuel]
  simp only [ascStart, Nat.sub_zero]
  rw [← List.range_eq_range']
  exact range_map_decodeKey (dimLists d)

/-- Descending accumulation until `has_more = false` is the exact reverse of
the ascending accumulation. -/
theorem paginateAll_desc_eq (d : MultiPartitionsDefinition) (L : Nat) (hL : 0 < L) :
    paginateAll d L false = (get_partition_keys d).reverse := by
  unfold paginateAll
  by_cases h0 : totalKeys d = 0
  · have hnil : get_partition_keys d = [] := by
      refine List.length_eq_zero.mp ?_
      rw [get_partition_keys, cartProd_length]
      exact h0
    rw [hnil, h0]
    simp [accumPages, page_zero d L false none h0]
  · have hds : descStart (totalKeys d) none = some (totalKeys d - 1) := by
      simp [descStart, h0]
    have hfuel : (totalKeys d - 1) + 1 ≤ (totalKeys d + 1) * L := by
      have := fuel_big (totalKeys d) L hL
      omega
    rw [accumPages_desc d L hL (totalKeys d + 1) none (totalKeys d - 1) h0 hds hfuel]
    have h1 : totalKeys d - 1 + 1 = totalKeys d := by omega
    rw [h1, List.map_reverse]
    exact congrArg List.reverse (range_map_decodeKey (dimLists d))

/-- C1: accumulating ascending pages with any positive `limit`, feeding each
returned cursor into the next call until `has_more = false`, yields the full
composite-key enumeration with no duplicates and no omissions (count equal to
the product of the dimension sizes), and the descending accumulation is its
exact reverse. -/
theorem pagination_accumulation_correct (d : MultiPartitionsDefinition) (L : Nat)
    (hL : 0 < L) (hnd : ∀ dim ∈ d.dims, dim.keys.Nodup) :
    paginateAll d L true = get_partition_keys d ∧
    paginateAll d L false = (paginateAll d L true).reverse ∧
    (paginateAll d L true).Nodup ∧
    (paginateAll d L true).length = prodSizes (dimLists d) := by
  have hasc := paginateAll_asc_eq d L hL
  have hdesc := paginateAll_desc_eq d L hL
  refine ⟨hasc, by rw [hasc, hdesc], ?_, ?_⟩
  · rw [hasc]
    refine cartProd_nodup (dimLists d) ?_
    intro l hl
    rcases List.mem_map.mp hl with ⟨dim, hdim, hkeys⟩
    rw [← hkeys]
    exact hnd dim hdim
  · rw [hasc, get_partition_keys, cartProd_length]

/-- Multi-partitions definition of `test_pagination_accumulation`. -/
def accumTestDef : MultiPartitionsDefinition :=
  mkMultiPartitionsDefinition
    [⟨"dim_a", ["a1", "a2", "a3", "a4"]⟩, ⟨"dim_b", ["b1", "b2", "b3", "b4", "b5"]⟩]

theorem pagination_accumulation_correct_witness :
    paginateAll accumTestDef 4 true = get_partition_keys accumTestDef ∧
    paginateAll accumTestDef 4 false = (paginateAll accumTestDef 4 true).reverse ∧
    (paginateAll accumTestDef 4 true).Nodup ∧
    (paginateAll accumTestDef 4 true).length = prodSizes (dimLists accumTestDef) :=
  pagination_accumulation_correct accumTestDef 4 (by decide) (by decide)

/-- Multi-partitions definition of `test_basic_pagination` and
`test_reverse_pagination`. -/
def basicTestDef : MultiPartitionsDefinition :=
  mkMultiPartitionsDefinition [⟨"dim_a", ["a1", "a2", "a3"]⟩, ⟨"dim_b", ["b1", "b2"]⟩]

/-- The first ascending page of `test_basic_pagination`: three keys, dim_a
outer, `has_more = true`; the second page finishes the enumeration with
`has_more = false`. -/
theorem basic_pagination_check :
    (get_paginated_partition_keys basicTestDef 3 true none).results =
      [["a1", "b1"], ["a1", "b2"], ["a2", "b1"]] ∧
    (get_paginated_partition_keys basicTestDef 3 true none).has_more = true ∧
    (get_paginated_partition_keys basicTestDef 3 true
        (get_paginated_partition_keys basicTestDef 3 true none).cursor).results =
      [["a2", "b2"], ["a3", "b1"], ["a3", "b2"]] ∧
    (get_paginated_partition_keys basicTestDef 3 true
        (get_paginated_partition_keys basicTestDef 3 true none).cursor).has_more = false := by
  refine ⟨?_, ?_, ?_, ?_⟩ <;> rfl

/-- The two descending pages of `test_reverse_pagination`. -/
theorem reverse_pagination_check :
    (get_paginated_partition_keys basicTestDef 3 false none).results =
      [["a3", "b2"], ["a3", "b1"], ["a2", "b2"]] ∧
    (get_paginated_partition_keys basicTestDef 3 false none).has_more = true ∧
    (get_paginated_partition_keys basicTestDef 3 false
        (get_paginated_partition_keys basicTestDef 3 false none).cursor).results =
      [["a2", "b1"], ["a1", "b2"], ["a1", "b1"]] ∧
    (get_paginated_partition_keys basicTestDef 3 false
        (get_paginated_partition_keys basicTestDef 3 false none).cursor).has_more = false := by
  refine ⟨?_, ?_, ?_, ?_⟩ <;> rfl

theorem prodSizes_eq_zero {ls : List (List String)} (h : ∃ l ∈ ls, l = []) :
    prodSizes ls = 0 := by
  induction ls with
  | nil =>
    rcases h with ⟨l, hmem, _⟩
    exact absurd hmem (List.not_mem_nil l)
  | cons a as ih =>
    rcases h with ⟨l, hmem, hnil⟩
    rcases List.mem_cons.mp hmem with h1 | h2
    · rw [prodSizes, ← h1, hnil]
      simp
    · rw [prodSizes, ih ⟨l, h2, hnil⟩]
      simp

/-- C9: when some dimension has zero keys, pagination returns zero results and
`has_more = false` for any limit, any cursor and either direction. -/
theorem empty_dimension_pagination (d : MultiPartitionsDefinition) (L : Nat)
    (asc : Bool) (cursor : Option Nat) (h : ∃ dim ∈ d.dims, dim.keys = []) :
    (get_paginated_partition_keys d L asc cursor).results = [] ∧
    (get_paginated_partition_keys d L asc cursor).has_more = false := by
  have h0 : totalKeys d = 0 := by
    rcases h with ⟨dim, hmem, hkeys⟩
    refine prodSizes_eq_zero ⟨dim.keys, ?_, hkeys⟩
    exact List.mem_map.mpr ⟨dim, hmem, rfl⟩
  rw [page_zero d L asc cursor h0]
  exact ⟨rfl, rfl⟩

/-- Multi-partitions definition of `test_empty_dimension`. -/
def emptyDimTestDef : MultiPartitionsDefinition :=
  mkMultiPartitionsDefinition [⟨"dim_a", ["a1", "a2"]⟩, ⟨"dim_b", []⟩]

theorem empty_dimension_pagination_witness :
    (get_paginated_partition_keys emptyDimTestDef 10 true none).results = [] ∧
    (get_paginated_partition_keys emptyDimTestDef 10 true none).has_more = false :=
  empty_dimension_pagination emptyDimTestDef 10 true none
    ⟨⟨"dim_b", []⟩, by decide, rfl⟩

theorem uint32_eq_of_not_lt {x y : UInt32} (h1 : ¬x < y) (h2 : ¬y < x) : x = y := by
  refine UInt32.le_antisymm ?_ ?_
  · exact Nat.le_of_not_lt h2
  · exact Nat.le_of_not_lt h1

theorem charListLt_lex : ∀ (as bs : List Char),
    charListLt as bs = true ↔ List.Lex (· < ·) as bs
  | [], [] => by
    constructor
    · intro h
      simp [charListLt] at h
    · intro h
      cases h
  | [], b :: bs => by
    constructor
    · intro _
      exact List.Lex.nil
    · intro _
      rfl
  | a :: as, [] => by
    constructor
    · intro h
      simp [charListLt] at h
    · intro h
      cases h
  | a :: as, b :: bs => by
    by_cases hab : a.val < b.val
    · constructor
      · intro _
        exact List.Lex.rel (Char.lt_def.mpr hab)
      · intro _
        simp [charListLt, hab]
    · by_cases hba : b.val < a.val
      · constructor
        · intro h
          simp [charListLt, hab, hba] at h
        · intro h
          cases h with
          | cons h' => exact absurd hba (by simp)
          | rel h' => exact absurd (Char.lt_def.mp h') hab
      · have heq : a = b := Char.ext (uint32_eq_of_not_lt hab hba)
        subst heq
        have ih := charListLt_lex as bs
        constructor
        · intro h
          simp only [charListLt, if_neg hab, if_neg hba] at h
          exact List.Lex.cons (ih.mp h)
        · intro h
          cases h with
          | cons h' =>
            simp only [charListLt, if_neg hab, if_neg hba]
            exact ih.mpr h'
          | rel h' => exact absurd (Char.lt_def.mp h') hab

theorem strLt_iff (a b : String) : strLt a b = true ↔ a < b := by
  rw [String.lt_iff_toList_lt]
  exact charListLt_lex a.data b.data

/-- Ordering of dimensions by name, the order the canonical dimension list is
sorted in. -/
def nameLe (a b : Dimension) : Prop := a.name ≤ b.name

theorem insertDim_perm (d : Dimension) (l : List Dimension) :
    (insertDim d l).Perm (d :: l) := by
  induction l with
  | nil => rfl
  | cons e es ih =>
    rw [insertDim]
    by_cases h : strLt d.name e.name = true
    · rw [if_pos h]
    · rw [if_neg h]
      exact (ih.cons e).trans (List.Perm.swap d e es)

theorem insertDim_sorted (d : Dimension) (l : List Dimension)
    (h : l.Pairwise nameLe) : (insertDim d l).Pairwise nameLe := by
  induction l with
  | nil => simp [insertDim, List.pairwise_cons]
  | cons e es ih =>
    rw [List.pairwise_cons] at h
    obtain ⟨he, hes⟩ := h
    by_cases hlt : strLt d.name e.name = true
    · rw [insertDim, if_pos hlt]
      have hde : d.name ≤ e.name := le_of_lt ((strLt_iff _ _).mp hlt)
      refine List.pairwise_cons.mpr ⟨?_, List.pairwise_cons.mpr ⟨he, hes⟩⟩
      intro x hx
      rcases List.mem_cons.mp hx with h1 | h2
      · rw [h1]
        exact hde
      · exact le_trans hde (he x h2)
    · rw [insertDim, if_neg hlt]
      refine List.pairwise_cons.mpr ⟨?_, ih hes⟩
      intro x hx
      have hx' := (insertDim_perm d es).mem_iff.mp hx
      rcases List.mem_cons.mp hx' with h1 | h2
      · rw [h1]
        exact le_of_not_lt (fun hcon => hlt ((strLt_iff _ _).mpr hcon))
      · exact he x h2

theorem sortDimensions_perm (l : List Dimension) : (sortDimensions l).Perm l := by
  induction l with
  | nil => rfl
  | cons d ds ih => exact (insertDim_perm d (sortDimensions ds)).trans (ih.cons d)

theorem sortDimensions_sorted (l : List Dimension) :
    (sortDimensions l).Pairwise nameLe := by
  induction l with
  | nil => simp [sortDimensions]
  | cons d ds ih => exact insertDim_sorted d _ ih

/-- Multi-partitions definition of `test_multi_static_partitions`:
dimension mapping with insertion order `abc`, `xyz`. -/
def staticTestDef : MultiPartitionsDefinition :=
  mkMultiPartitionsDefinition [⟨"abc", ["a", "b", "c"]⟩, ⟨"xyz", ["x", "y", "z"]⟩]

/-- The model reproduces `test_multi_static_partitions` exactly: `abc` is the
outer dimension and the canonical strings put the `abc` value first. -/
theorem multi_static_partitions_check :
    get_partition_key_strings staticTestDef =
      ["a|x", "a|y", "a|z", "b|x", "b|y", "b|z", "c|x", "c|y", "c|z"] := by
  decide

/-- Dimension mapping of `test_dynamic_dimension_in_multipartitioned_asset`:
insertion order `static`, `dynamic`, canonical key `1|a` with the `dynamic`
value first — the canonical order here is the reverse of insertion order only
because that happens to coincide with sorting by name. -/
def dynTestDef : MultiPartitionsDefinition :=
  mkMultiPartitionsDefinition [⟨"static", ["a", "b", "c"]⟩, ⟨"dynamic", ["1"]⟩]

theorem dynamic_dimension_order_check :
    dynTestDef.dims.map Dimension.name = ["dynamic", "static"] ∧
    (get_partition_key_strings dynTestDef).head? = some "1|a" := by
  constructor <;> decide

/-- C3 counterexample: for the dimension mapping of
`test_multi_static_partitions` (insertion order `abc`, `xyz`), the canonical
dimension order equals insertion order — not its reverse — and the first
enumerated key string is `a|x`, where reverse-insertion enumeration would
start at `x|a`. -/
theorem dimension_order_not_reverse_insertion :
    staticTestDef.dims.map Dimension.name ≠ (["abc", "xyz"] : List String).reverse ∧
    (get_partition_key_strings staticTestDef).head? = some "a|x" := by
  constructor <;> decide

/-- C3 amended: for every insertion-ordered dimension mapping, the canonical
dimension order used for cartesian enumeration and the canonical key string is
the insertion order sorted lexicographically by dimension name (a permutation
of the insertion order, with names pairwise nondecreasing), not the reverse of
insertion order. -/
theorem dimension_order_sorted_by_name (ins : List Dimension) :
    ((mkMultiPartitionsDefinition ins).dims).Perm ins ∧
    ((mkMultiPartitionsDefinition ins).dims.map Dimension.name).Pairwise (· ≤ ·) := by
  constructor
  · exact sortDimensions_perm ins
  · exact List.pairwise_map.mpr (sortDimensions_sorted ins)

/-- Default dimension, used only as a `getD` fallback. -/
def dimDflt : Dimension := ⟨"", []⟩

/-- Modelled from the spec: one dimension's own ascending inclusive
`[start, end]` sub-range, cut from its current ordered key list. -/
def dimSubrange (keys : List String) (s e : String) : List String :=
  (keys.drop (keys.indexOf s)).take (keys.indexOf e + 1 - keys.indexOf s)

/-- Per-dimension `[start, end]` sub-ranges of a range query, in canonical
dimension order. -/
def subrangesL : List Dimension → List String → List String → List (List String)
  | dim :: dims, s :: sk, e :: ek => dimSubrange dim.keys s e :: subrangesL dims sk ek
  | _, _, _ => []

/-- Sub-ranges of a range query against a definition. -/
def subranges (d : MultiPartitionsDefinition) (sk ek : CompositeKey) : List (List String) :=
  subrangesL d.dims sk ek

/-- Modelled from the spec: `get_partition_keys_in_range` enumerates the
cartesian product of each dimension's own `[start, end]` sub-range in the
definition's fixed dimension order, outer dimension varying slowest; the
single-varying-dimension case degenerates to holding every other dimension
fixed.  (Endpoint validity is the caller's obligation — `InvalidRangeError` —
and appears here as the hypotheses of the range theorems.) -/
def get_partition_keys_in_range (d : MultiPartitionsDefinition) (sk ek : CompositeKey) :
    List CompositeKey :=
  cartProd (subranges d sk ek)

/-- Validity of a range-endpoint pair in one dimension: both values occur in
the key list and the start value does not come after the end value. -/
def validEndpoints (keys : List String) (s e : String) : Prop :=
  s ∈ keys ∧ e ∈ keys ∧ keys.indexOf s ≤ keys.indexOf e

instance (keys : List String) (s e : String) : Decidable (validEndpoints keys s e) := by
  unfold validEndpoints
  infer_instance

theorem dimSubrange_spec (keys : List String) (s e : String) (h : validEndpoints keys s e) :
    (∃ pre post, keys = pre ++ (dimSubrange keys s e ++ post)) ∧
    (dimSubrange keys s e).head? = some s ∧
    (dimSubrange keys s e).getLast? = some e ∧
    (dimSubrange keys s e).length = keys.indexOf e + 1 - keys.indexOf s := by
  obtain ⟨hs, he, hle⟩ := h
  have hslt : keys.indexOf s < keys.length := List.indexOf_lt_length.mpr hs
  have helt : keys.indexOf e < keys.length := List.indexOf_lt_length.mpr he
  have hlen : (dimSubrange keys s e).length = keys.indexOf e + 1 - keys.indexOf s := by
    rw [dimSubrange, List.length_take, List.length_drop]
    omega
  refine ⟨⟨keys.take (keys.indexOf s), keys.drop (keys.indexOf e + 1), ?_⟩, ?_, ?_, hlen⟩
  · have h2 := List.take_append_drop (keys.indexOf e + 1 - keys.indexOf s)
      (keys.drop (keys.indexOf s))
    rw [List.drop_drop] at h2
    have h3 : keys.indexOf s + (keys.indexOf e + 1 - keys.indexOf s) = keys.indexOf e + 1 := by
      omega
    rw [h3] at h2
    calc keys = keys.take (keys.indexOf s) ++ keys.drop (keys.indexOf s) :=
          (List.take_append_drop _ _).symm
      _ = keys.take (keys.indexOf s) ++ (dimSubrange keys s e ++ keys.drop (keys.indexOf e + 1)) := by
          rw [← h2]
          rfl
  · rw [List.head?_eq_getElem?, dimSubrange, List.getElem?_take, if_pos (by omega),
      List.getElem?_drop, Nat.add_zero, List.getElem?_eq_getElem hslt,
      List.getElem_indexOf hslt]
  · rw [List.getLast?_eq_getElem?, hlen, dimSubrange, List.getElem?_take, if_pos (by omega),
      List.getElem?_drop]
    have h4 : keys.indexOf s + (keys.indexOf e + 1 - keys.indexOf s - 1) = keys.indexOf e := by
      omega
    rw [h4, List.getElem?_eq_getElem helt, List.getElem_indexOf helt]

theorem mem_of_head?_eq {l : List String} {a : String} (h : l.head? = some a) : a ∈ l := by
  rw [List.head?_eq_getElem?] at h
  exact List.getElem?_mem h

theorem mem_of_getLast?_eq {l : List String} {a : String} (h : l.getLast? = some a) : a ∈ l := by
  rw [List.getLast?_eq_getElem?] at h
  exact List.getElem?_mem h

theorem dimSubrange_self (keys : List String) (s : String) (hs : s ∈ keys) :
    dimSubrange keys s s = [s] := by
  obtain ⟨_, hhead, _, hlen⟩ := dimSubrange_spec keys s s ⟨hs, hs, le_refl _⟩
  have hl1 : (dimSubrange keys s s).length = 1 := by
    rw [hlen]
    omega
  match hm : dimSubrange keys s s with
  | [x] =>
    rw [hm] at hhead
    simp only [List.head?_cons, Option.some.injEq] at hhead
    rw [hhead]
  | [] =>
    rw [hm] at hl1
    simp at hl1
  | _ :: _ :: _ =>
    rw [hm] at hl1
    simp at hl1

theorem cartProd_mem (k : List String) (ls : List (List String))
    (h : List.Forall₂ (· ∈ ·) k ls) : k ∈ cartProd ls := by
  induction h with
  | nil => simp [cartProd]
  | cons h1 _ ih =>
    rw [cartProd, List.mem_flatMap]
    exact ⟨_, h1, List.mem_map.mpr ⟨_, ih, rfl⟩⟩

theorem subrangesL_getD (dims : List Dimension) : ∀ (sk ek : List String) (i : Nat),
    sk.length = dims.length → ek.length = dims.length → i < dims.length →
    (subrangesL dims sk ek).getD i [] =
      dimSubrange ((dims.getD i dimDflt).keys) (sk.getD i "") (ek.getD i "") := by
  induction dims with
  | nil =>
    intro sk ek i _ _ hi
    exact absurd hi (by simp)
  | cons dim dims ih =>
    intro sk ek i h1 h2 hi
    rcases sk with _ | ⟨s, sk⟩
    · simp at h1
    rcases ek with _ | ⟨e, ek⟩
    · simp at h2
    rcases i with _ | i
    · simp [subrangesL]
    · simp only [subrangesL, List.getD_cons_succ]
      exact ih sk ek i (by simpa using h1) (by simpa using h2) (by simpa using hi)

theorem subrangesL_mem (dims : List Dimension) : ∀ (sk ek : List String),
    sk.length = dims.length → ek.length = dims.length →
    (∀ i, i < dims.length →
      validEndpoints ((dims.getD i dimDflt).keys) (sk.getD i "") (ek.getD i "")) →
    List.Forall₂ (· ∈ ·) sk (subrangesL dims sk ek) ∧
    List.Forall₂ (· ∈ ·) ek (subrangesL dims sk ek) := by
  induction dims with
  | nil =>
    intro sk ek h1 h2 _
    rcases sk with _ | ⟨s, sk⟩
    · rcases ek with _ | ⟨e, ek⟩
      · exact ⟨List.Forall₂.nil, List.Forall₂.nil⟩
      · simp at h2
    · simp at h1
  | cons dim dims ih =>
    intro sk ek h1 h2 hv
    rcases sk with _ | ⟨s, sk⟩
    · simp at h1
    rcases ek with _ | ⟨e, ek⟩
    · simp at h2
    have hv0 := hv 0 (by simp)
    simp only [List.getD_cons_zero] at hv0
    obtain ⟨_, hhead, hlast, _⟩ := dimSubrange_spec dim.keys s e hv0
    have hrest := ih sk ek (by simpa using h1) (by simpa using h2) (fun i hi => by
      have h := hv (i + 1) (by simpa using Nat.succ_lt_succ hi)
      simpa [List.getD_cons_succ] using h)
    exact ⟨List.Forall₂.cons (mem_of_head?_eq hhead) hrest.1,
      List.Forall₂.cons (mem_of_getLast?_eq hlast) hrest.2⟩

theorem subrangesL_all_fixed (dims : List Dimension) : ∀ (sk ek : List String),
    sk.length = dims.length → ek.length = dims.length →
    (∀ i, i < dims.length →
      validEndpoints ((dims.getD i dimDflt).keys) (sk.getD i "") (ek.getD i "")) →
    (∀ i, i < dims.length → sk.getD i "" = ek.getD i "") →
    cartProd (subrangesL dims sk ek) = [sk] := by
  induction dims with
  | nil =>
    intro sk ek h1 _ _ _
    rcases sk with _ | ⟨s, sk⟩
    · rfl
    · simp at h1
  | cons dim dims ih =>
    intro sk ek h1 h2 hv hfix
    rcases sk with _ | ⟨s, sk⟩
    · simp at h1
    rcases ek with _ | ⟨e, ek⟩
    · simp at h2
    have hv0 := hv 0 (by simp)
    simp only [List.getD_cons_zero] at hv0
    have hse : s = e := by
      have := hfix 0 (by simp)
      simpa using this
    subst hse
    have hsub0 : dimSubrange dim.keys s s = [s] := dimSubrange_self dim.keys s hv0.1
    have hrest := ih sk ek (by simpa using h1) (by simpa using h2)
      (fun i hi => by
        have h := hv (i + 1) (by simpa using Nat.succ_lt_succ hi)
        simpa [List.getD_cons_succ] using h)
      (fun i hi => by
        have h := hfix (i + 1) (by simpa using Nat.succ_lt_succ hi)
        simpa [List.getD_cons_succ] using h)
    rw [subrangesL, hsub0, cartProd, hrest]
    rfl

theorem subrangesL_single_varying (dims : List Dimension) : ∀ (sk ek : List String) (j : Nat),
    sk.length = dims.length → ek.length = dims.length →
    (∀ i, i < dims.length →
      validEndpoints ((dims.getD i dimDflt).keys) (sk.getD i "") (ek.getD i "")) →
    j < dims.length →
    (∀ i, i < dims.length → i ≠ j → sk.getD i "" = ek.getD i "") →
    cartProd (subrangesL dims sk ek) =
      (dimSubrange ((dims.getD j dimDflt).keys) (sk.getD j "") (ek.getD j "")).map
        (fun v => sk.set j v) := by
  induction dims with
  | nil =>
    intro sk ek j _ _ _ hj _
    exact absurd hj (by simp)
  | cons dim dims ih =>
    intro sk ek j h1 h2 hv hj hfix
    rcases sk with _ | ⟨s, sk⟩
    · simp at h1
    rcases ek with _ | ⟨e, ek⟩
    · simp at h2
    have hv0 := hv 0 (by simp)
    simp only [List.getD_cons_zero] at hv0
    rcases j with _ | j
    · have hrest : cartProd (subrangesL dims sk ek) = [sk] := by
        refine subrangesL_all_fixed dims sk ek (by simpa using h1) (by simpa using h2)
          (fun i hi => by
            have h := hv (i + 1) (by simpa using Nat.succ_lt_succ hi)
            simpa [List.getD_cons_succ] using h)
          (fun i hi => by
            have h := hfix (i + 1) (by simpa using Nat.succ_lt_succ hi) (by omega)
            simpa [List.getD_cons_succ] using h)
      rw [subrangesL, cartProd, hrest]
      simp only [List.getD_cons_zero, List.map_cons, List.map_nil]
      rw [← List.map_eq_flatMap]
      rfl
    · have hse : s = e := by
        have := hfix 0 (by simp) (by omega)
        simpa using this
      subst hse
      have hsub0 : dimSubrange dim.keys s s = [s] := dimSubrange_self dim.keys s hv0.1
      have hrest := ih sk ek j (by simpa using h1) (by simpa using h2)
        (fun i hi => by
          have h := hv (i + 1) (by simpa using Nat.succ_lt_succ hi)
          simpa [List.getD_cons_succ] using h)
        (by simpa using hj)
        (fun i hi hne => by
          have h := hfix (i + 1) (by simpa using Nat.succ_lt_succ hi) (by omega)
          simpa [List.getD_cons_succ] using h)
      rw [subrangesL, hsub0, cartProd, hrest]
      simp only [List.getD_cons_succ, List.flatMap_cons, List.flatMap_nil, List.append_nil,
        List.map_map]
      rfl

end Dagster

namespace Dagster

/-- C2: for valid endpoint keys whose start value precedes or equals the end
value in every dimension, `get_partition_keys_in_range` returns exactly the
cartesian product of each dimension's own ascending inclusive `[start, end]`
sub-range, enumerated in the definition's fixed dimension order with the outer
dimension varying slowest: each sub-range is a contiguous slice of its
dimension's ordered key list beginning at the start value and ending at the
end value, both endpoint keys appear in the result, the count is the product
of the sub-range sizes, and when only one dimension differs between the
endpoints the other dimensions are held fixed with one key per step of the
varying dimension. -/
theorem range_resolver_correct (d : MultiPartitionsDefinition) (sk ek : CompositeKey)
    (hsk : sk.length = d.dims.length) (hek : ek.length = d.dims.length)
    (hv : ∀ i, i < d.dims.length →
      validEndpoints ((d.dims.getD i dimDflt).keys) (sk.getD i "") (ek.getD i "")) :
    get_partition_keys_in_range d sk ek = cartProd (subranges d sk ek) ∧
    (∀ i, i < d.dims.length →
      (∃ pre post,
        (d.dims.getD i dimDflt).keys = pre ++ ((subranges d sk ek).getD i [] ++ post)) ∧
      ((subranges d sk ek).getD i []).head? = some (sk.getD i "") ∧
      ((subranges d sk ek).getD i []).getLast? = some (ek.getD i "")) ∧
    sk ∈ get_partition_keys_in_range d sk ek ∧
    ek ∈ get_partition_keys_in_range d sk ek ∧
    (get_partition_keys_in_range d sk ek).length = prodSizes (subranges d sk ek) ∧
    (∀ j, j < d.dims.length →
      (∀ i, i < d.dims.length → i ≠ j → sk.getD i "" = ek.getD i "") →
      get_partition_keys_in_range d sk ek =
        (dimSubrange ((d.dims.getD j dimDflt).keys) (sk.getD j "") (ek.getD j "")).map
          (fun v => sk.set j v)) := by
  refine ⟨rfl, ?_, ?_, ?_, ?_, ?_⟩
  · intro i hi
    rw [subranges, subrangesL_getD d.dims sk ek i hsk hek hi]
    obtain ⟨hinf, hhead, hlast, _⟩ := dimSubrange_spec _ _ _ (hv i hi)
    exact ⟨hinf, hhead, hlast⟩
  · exact cartProd_mem sk _ (subrangesL_mem d.dims sk ek hsk hek hv).1
  · exact cartProd_mem ek _ (subrangesL_mem d.dims sk ek hsk hek hv).2
  · exact cartProd_length _
  · intro j hj hfix
    exact subrangesL_single_varying d.dims sk ek j hsk hek hv hj hfix

/-- Multi-partitions definition of the range-query tests: daily dimension `a`
reduced to its ordered key list, static dimension `b`. -/
def rangeTestDef : MultiPartitionsDefinition :=
  mkMultiPartitionsDefinition
    [⟨"a", ["2024-01-01", "2024-01-02", "2024-01-03", "2024-01-04"]⟩,
     ⟨"b", ["1", "2", "3", "4", "5"]⟩]

theorem range_resolver_correct_witness :
    ["2024-01-01", "2"] ∈
        get_partition_keys_in_range rangeTestDef ["2024-01-01", "2"] ["2024-01-03", "4"] ∧
    ["2024-01-03", "4"] ∈
        get_partition_keys_in_range rangeTestDef ["2024-01-01", "2"] ["2024-01-03", "4"] ∧
    (get_partition_keys_in_range rangeTestDef ["2024-01-01", "2"] ["2024-01-03", "4"]).length =
      prodSizes (subranges rangeTestDef ["2024-01-01", "2"] ["2024-01-03", "4"]) := by
  have h := range_resolver_correct rangeTestDef ["2024-01-01", "2"] ["2024-01-03", "4"]
    (by decide) (by decide) (by decide)
  exact ⟨h.2.2.1, h.2.2.2.1, h.2.2.2.2.1⟩

/-- `test_multipartitions_range_cartesian_multiple_keys_in_both_ranges`: the
3-by-3 restricted cross product, `a` varying slowest. -/
theorem range_cartesian_multiple_keys_check :
    get_partition_keys_in_range rangeTestDef ["2024-01-01", "2"] ["2024-01-03", "4"] =
      [["2024-01-01", "2"], ["2024-01-01", "3"], ["2024-01-01", "4"],
       ["2024-01-02", "2"], ["2024-01-02", "3"], ["2024-01-02", "4"],
       ["2024-01-03", "2"], ["2024-01-03", "3"], ["2024-01-03", "4"]] := by
  decide

/-- `test_multipartitions_range_cartesian_single_key_in_secondary`: only the
time-like dimension varies, `b` held fixed. -/
theorem range_cartesian_single_secondary_check :
    get_partition_keys_in_range rangeTestDef ["2024-01-01", "2"] ["2024-01-03", "2"] =
      [["2024-01-01", "2"], ["2024-01-02", "2"], ["2024-01-03", "2"]] := by
  decide

/-- `test_multipartitions_range_cartesian_single_key_in_primary`: only the
static dimension varies, `a` held fixed. -/
theorem range_cartesian_single_primary_check :
    get_partition_keys_in_range rangeTestDef ["2024-01-01", "2"] ["2024-01-01", "4"] =
      [["2024-01-01", "2"], ["2024-01-01", "3"], ["2024-01-01", "4"]] := by
  decide

/-- Modelled from the spec: splitting a key string on the reserved `|`
separator, with Python `str.split` semantics — no separator yields a single
part, adjacent or trailing separators yield empty parts. -/
def splitParts : List Char → List (List Char)
  | [] => [[]]
  | c :: cs =>
    if c = '|' then [] :: splitParts cs
    else
      match splitParts cs with
      | [] => [[c]]
      | p :: ps => (c :: p) :: ps

/-- The parts of a key string, as strings. -/
def splitKey (s : String) : List String :=
  (splitParts s.data).map (fun cs => String.mk cs)

/-- Modelled from the spec: `has_partition_key` splits the key string on `|`
and checks, positionally per the definition's fixed dimension order, that
there is exactly one part per dimension and each part is a member of its
dimension's current key list; any part-count mismatch or non-member part
yields `false`.  The function is total: it never raises. -/
def has_partition_key (d : MultiPartitionsDefinition) (keyStr : String) : Bool :=
  (splitKey keyStr).length == d.dims.length &&
    ((splitKey keyStr).zip d.dims).all (fun p => p.2.keys.contains p.1)

/-- C6: `has_partition_key` returns `true` exactly when the split of the key
string has one part per dimension and each part, matched positionally to the
canonical dimension order, is a member of the corresponding dimension's
current key list; in all other cases it returns `false` rather than raising
(the function is total by construction). -/
theorem has_partition_key_iff (d : MultiPartitionsDefinition) (s : String) :
    has_partition_key d s = true ↔
      ((splitKey s).length = d.dims.length ∧
       ∀ p ∈ (splitKey s).zip d.dims, p.1 ∈ p.2.keys) := by
  rw [has_partition_key, Bool.and_eq_true, beq_iff_eq, List.all_eq_true]
  constructor
  · intro ⟨h1, h2⟩
    exact ⟨h1, fun p hp => List.elem_iff.mp (h2 p hp)⟩
  · intro ⟨h1, h2⟩
    exact ⟨h1, fun p hp => List.elem_iff.mpr (h2 p hp)⟩

/-- Multi-partitions definition of `test_has_partition_key`. -/
def hasKeyTestDef : MultiPartitionsDefinition :=
  mkMultiPartitionsDefinition [⟨"dim1", ["a", "b", "c"]⟩, ⟨"dim2", ["1", "2", "3"]⟩]

theorem has_partition_key_iff_witness :
    has_partition_key hasKeyTestDef "a|2" = true ↔
      ((splitKey "a|2").length = hasKeyTestDef.dims.length ∧
       ∀ p ∈ (splitKey "a|2").zip hasKeyTestDef.dims, p.1 ∈ p.2.keys) :=
  has_partition_key_iff hasKeyTestDef "a|2"

/-- The six input rows of `test_has_partition_key`: valid keys accepted,
swapped positional order, wrong members, missing separator and garbage all
rejected. -/
theorem has_partition_key_check :
    has_partition_key hasKeyTestDef "a|2" = true ∧
    has_partition_key hasKeyTestDef "c|1" = true ∧
    has_partition_key hasKeyTestDef "2|a" = false ∧
    has_partition_key hasKeyTestDef "a|b" = false ∧
    has_partition_key hasKeyTestDef "abc" = false ∧
    has_partition_key hasKeyTestDef "super1@#^k-INVALID" = false := by
  decide

end Dagster

namespace Dagster

/-- Modelled from the spec: stale-cause categories.  The fixed enum order is
pinned by `test_stale_cause_comparison`: CODE before DATA (and DEPENDENCIES
last), not the DATA-first order the spec text lists. -/
inductive StaleCauseCategory
  | CODE
  | DATA
  | DEPENDENCIES
  deriving DecidableEq, Repr

/-- Position of a category in the fixed enum order. -/
def StaleCauseCategory.rank : StaleCauseCategory → Nat
  | .CODE => 0
  | .DATA => 1
  | .DEPENDENCIES => 2

/-- Position of a category in the enum order the spec text claims,
{DATA, CODE, DEPENDENCIES}.  Kept only to state the original claim. -/
def StaleCauseCategory.specRank : StaleCauseCategory → Nat
  | .DATA => 0
  | .CODE => 1
  | .DEPENDENCIES => 2

/-- A stale cause without nesting: asset key, category, reason and the
dependency key the cause refers to, when any. -/
structure StaleCauseBase where
  key : String
  category : StaleCauseCategory
  reason : String
  dependency : Option String
  deriving DecidableEq, Repr

/-- Modelled from the spec: a stale cause with its nested child causes
explaining why an upstream changed (the causes produced in the tests nest one
level deep, so children are unnested causes). -/
structure StaleCause where
  base : StaleCauseBase
  children : List StaleCauseBase
  deriving DecidableEq, Repr

/-- Modelled from the spec: ordering between two stale causes, primarily by
category in the fixed enum order, ties broken lexicographically by key and
then reason. -/
def StaleCause.ltb (a b : StaleCause) : Bool :=
  if a.base.category.rank < b.base.category.rank then true
  else if b.base.category.rank < a.base.category.rank then false
  else if strLt a.base.key b.base.key then true
  else if strLt b.base.key a.base.key then false
  else strLt a.base.reason b.base.reason

theorem charListLt_irrefl (l : List Char) : charListLt l l = false := by
  induction l with
  | nil => rfl
  | cons c cs ih =>
    rw [charListLt, if_neg (by simp), if_neg (by simp)]
    exact ih

theorem strLt_irrefl (s : String) : strLt s s = false :=
  charListLt_irrefl s.data

theorem stale_cause_category_rank_inj (c1 c2 : StaleCauseCategory)
    (h : c1.rank = c2.rank) : c1 = c2 := by
  cases c1 <;> cases c2 <;> first | rfl | (exfalso; simp [StaleCauseCategory.rank] at h)

/-- The two causes of `test_stale_cause_comparison`: identical except for
category (CODE vs DATA). -/
def causeCode : StaleCause := ⟨⟨"foo", .CODE, "ok", none⟩, []⟩

/-- The DATA-category twin of `causeCode`. -/
def causeData : StaleCause := ⟨⟨"foo", .DATA, "ok", none⟩, []⟩

/-- C4 counterexample: under the spec's claimed enum order
{DATA, CODE, DEPENDENCIES} the DATA cause would compare smaller than the CODE
cause, but the comparison pinned by `test_stale_cause_comparison` makes the
CODE cause the smaller one: `causeData < causeCode` is false even though
DATA's claimed position precedes CODE's. -/
theorem stale_cause_order_counterexample :
    StaleCauseCategory.specRank .DATA < StaleCauseCategory.specRank .CODE ∧
    StaleCause.ltb causeData causeCode = false ∧
    StaleCause.ltb causeCode causeData = true := by
  refine ⟨by decide, by decide, by decide⟩

/-- C4 amended: the order between two causes is determined primarily by
category position in the fixed enum order {CODE, DATA, DEPENDENCIES}; for two
causes identical except in category, the one whose category appears earlier in
that order compares as smaller. -/
theorem stale_cause_order_by_category (a b : StaleCause)
    (hk : a.base.key = b.base.key) (hr : a.base.reason = b.base.reason) :
    StaleCause.ltb a b = true ↔ a.base.category.rank < b.base.category.rank := by
  rw [StaleCause.ltb]
  by_cases h1 : a.base.category.rank < b.base.category.rank
  · rw [if_pos h1]
    simp [h1]
  · rw [if_neg h1]
    by_cases h2 : b.base.category.rank < a.base.category.rank
    · rw [if_pos h2]
      simp [h1]
    · rw [if_neg h2, hk, hr, strLt_irrefl, strLt_irrefl]
      simp [h1]

theorem stale_cause_order_by_category_witness :
    StaleCause.ltb causeCode causeData = true ↔
      StaleCauseCategory.rank .CODE < StaleCauseCategory.rank .DATA :=
  stale_cause_order_by_category causeCode causeData rfl rfl

/-- Modelled from the spec: a partitions subset over a fixed definition,
member composite keys stored by canonical string in first-seen order. -/
structure MultiPartitionsSubset where
  members : List String
  deriving DecidableEq, Repr

/-- Modelled from the spec: the empty subset. -/
def empty_subset : MultiPartitionsSubset := ⟨[]⟩

/-- Modelled from the spec: `with_partition_keys` returns the union of the
subset with the given keys (insertion-ordered, deduplicated). -/
def with_partition_keys (s : MultiPartitionsSubset) (ks : List String) :
    MultiPartitionsSubset :=
  ⟨ks.foldl (fun acc k => if k ∈ acc then acc else acc ++ [k]) s.members⟩

/-- Modelled from the spec: the two serialized shapes `deserialize_subset`
accepts — the legacy bare JSON array of canonical key strings, and the
versioned `{"version": N, "subset": [...]}` wrapper.  The JSON text syntax is
abstracted to its parsed shape. -/
inductive SerializedSubset
  | legacy (keys : List String)
  | versioned (version : Nat) (keys : List String)
  deriving DecidableEq, Repr

/-- Modelled from the spec: `serialize` always writes the current versioned
format. -/
def serialize (s : MultiPartitionsSubset) : SerializedSubset :=
  .versioned 1 s.members

/-- Modelled from the spec: `deserialize_subset` accepts both formats and
rebuilds the subset from the listed member keys either way. -/
def deserialize_subset : SerializedSubset → MultiPartitionsSubset
  | .legacy ks => with_partition_keys empty_subset ks
  | .versioned _ ks => with_partition_keys empty_subset ks

theorem mem_insertAll (ks : List String) : ∀ (acc : List String) (k : String),
    (k ∈ ks.foldl (fun acc k => if k ∈ acc then acc else acc ++ [k]) acc) ↔
      (k ∈ acc ∨ k ∈ ks) := by
  induction ks with
  | nil => simp
  | cons a ks ih =>
    intro acc k
    rw [List.foldl_cons]
    by_cases h : a ∈ acc
    · rw [if_pos h, ih]
      constructor
      · rintro (h1 | h2)
        · exact Or.inl h1
        · exact Or.inr (List.mem_cons_of_mem a h2)
      · rintro (h1 | h2)
        · exact Or.inl h1
        · rcases List.mem_cons.mp h2 with h3 | h4
          · exact Or.inl (h3 ▸ h)
          · exact Or.inr h4
    · rw [if_neg h, ih]
      simp only [List.mem_append, List.mem_cons, List.mem_singleton]
      tauto

/-- C5: the serialize→deserialize round trip of any subset preserves its
member-key set; the legacy and versioned encodings of the same key list
deserialize to the same member set; and `serialize` always writes the
versioned format. -/
theorem subset_serialization_roundtrip (ks : List String) (n : Nat) :
    (∀ k, k ∈ (deserialize_subset (serialize (with_partition_keys empty_subset ks))).members ↔
      k ∈ (with_partition_keys empty_subset ks).members) ∧
    (∀ k, k ∈ (deserialize_subset (.legacy ks)).members ↔
      k ∈ (deserialize_subset (.versioned n ks)).members) ∧
    (∃ ks', serialize (with_partition_keys empty_subset ks) = .versioned 1 ks') := by
  refine ⟨?_, ?_, ⟨_, rfl⟩⟩
  · intro k
    rw [serialize, deserialize_subset, with_partition_keys, mem_insertAll]
    constructor
    · rintro (h1 | h2)
      · exact absurd h1 (by simp [empty_subset])
      · exact h2
    · intro h
      exact Or.inr h
  · intro k
    rfl

/-- `test_multipartitions_backcompat_subset_serialization`: both encodings of
`["a|x", "c|z"]` produce the subset with exactly those two member keys. -/
theorem subset_backcompat_check :
    (deserialize_subset (.legacy ["a|x", "c|z"])).members = ["a|x", "c|z"] ∧
    (deserialize_subset (.versioned 1 ["a|x", "c|z"])).members = ["a|x", "c|z"] := by
  constructor <;> decide

end Dagster

namespace Dagster

/-- Modelled from the spec: a dependency edge as the staleness resolver sees
it — the upstream asset key plus the number of upstream partitions involved in
the dependency comparison (supplied by the external partition-mapping
collaborator; 1 for an unpartitioned dependency). -/
structure DepEdge where
  upstream : String
  partitionsCount : Nat
  deriving DecidableEq, Repr

/-- Modelled from the spec: an asset node of the dependency graph — its
declared code version (if any) and its upstream dependencies. -/
structure AssetNode where
  key : String
  codeVersion : Option String
  deps : List DepEdge
  deriving DecidableEq, Repr

/-- Modelled from the spec: the provenance captured at materialization time —
the code version and, per upstream, the data version and storage id observed
then. -/
structure Provenance where
  codeVersion : Option String
  inputDataVersions : List (String × String)
  inputStorageIds : List (String × Nat)
  deriving DecidableEq, Repr

/-- Modelled from the spec: the latest record of an asset in the event
store — current data version, storage id of the materialization, and its
provenance (absent for records stored without provenance metadata). -/
structure Record where
  dataVersion : String
  storageId : Nat
  provenance : Option Provenance
  deriving DecidableEq, Repr

/-- Modelled from the spec: the staleness resolver's view — the asset graph,
the latest record per asset, and the configured partition-count threshold at
or above which dependency data-version checks are skipped (the boundary is
pinned by `test_stale_status_dependency_partitions_count_over_threshold` and
`test_stale_status_self_partitioned`, which skip at count equal to the
threshold). -/
structure StaleState where
  assets : List AssetNode
  latest : List (String × Record)
  threshold : Nat
  deriving DecidableEq, Repr

/-- Freshness status of an asset. -/
inductive StaleStatus
  | MISSING
  | FRESH
  | STALE
  deriving DecidableEq, Repr

/-- The asset node for a key. -/
def findAsset (st : StaleState) (k : String) : Option AssetNode :=
  st.assets.find? (fun a => a.key == k)

/-- The latest record for a key. -/
def latestRecord (st : StaleState) (k : String) : Option Record :=
  st.latest.lookup k

/-- CODE cause: the asset declares a code version that differs from the one
recorded in its provenance.  An asset without a declared code version
produces no code cause. -/
def codeCauses (a : AssetNode) (prov : Provenance) : List StaleCause :=
  match a.codeVersion with
  | none => []
  | some cv =>
    if prov.codeVersion ≠ some cv then
      [⟨⟨a.key, .CODE, "has a new code version", none⟩, []⟩]
    else []

/-- DEPENDENCIES causes: dependencies recorded in provenance but no longer
declared (removed), then dependencies declared but absent from provenance
(added). -/
def depAddedRemovedCauses (a : AssetNode) (prov : Provenance) : List StaleCause :=
  (prov.inputDataVersions.filter
      (fun p => !(a.deps.any (fun e => e.upstream == p.1)))).map
    (fun p => ⟨⟨a.key, .DEPENDENCIES, "removed dependency on " ++ p.1, some p.1⟩, []⟩) ++
  (a.deps.filter
      (fun e => !(prov.inputDataVersions.any (fun p => p.1 == e.upstream)))).map
    (fun e => ⟨⟨a.key, .DEPENDENCIES, "has a new dependency on " ++ e.upstream,
      some e.upstream⟩, []⟩)

/-- DATA cause of one dependency edge: skipped entirely when the number of
partitions involved reaches the configured threshold; otherwise a
code-versioned upstream is compared by data version, and an unversioned
upstream by storage id (any new materialization of it is a change, even with
an unchanged data version). -/
def depDataCause (st : StaleState) (a : AssetNode) (prov : Provenance)
    (e : DepEdge) : List StaleCause :=
  if st.threshold ≤ e.partitionsCount then []
  else
    match latestRecord st e.upstream, findAsset st e.upstream,
        prov.inputDataVersions.lookup e.upstream,
        prov.inputStorageIds.lookup e.upstream with
    | some depRec, some depAsset, some recordedV, some recordedS =>
      match depAsset.codeVersion with
      | some _ =>
        if depRec.dataVersion ≠ recordedV then
          [⟨⟨a.key, .DATA, "has a new dependency data version", some e.upstream⟩,
            [⟨e.upstream, .DATA, "has a new data version", none⟩]⟩]
        else []
      | none =>
        if depRec.storageId ≠ recordedS then
          [⟨⟨a.key, .DATA, "has a new dependency materialization", some e.upstream⟩,
            [⟨e.upstream, .DATA, "has a new materialization", none⟩]⟩]
        else []
    | _, _, _, _ => []

/-- Modelled from the spec: the immediate stale causes of an asset.  A record
without provenance yields no causes. -/
def get_stale_causes (st : StaleState) (k : String) : List StaleCause :=
  match findAsset st k, latestRecord st k with
  | some a, some r =>
    match r.provenance with
    | none => []
    | some prov =>
      codeCauses a prov ++ depAddedRemovedCauses a prov ++
        a.deps.flatMap (depDataCause st a prov)
  | _, _ => []

/-- Modelled from the spec: MISSING without a record, STALE with at least one
stale cause, FRESH otherwise. -/
def get_status (st : StaleState) (k : String) : StaleStatus :=
  match latestRecord st k with
  | none => .MISSING
  | some _ => if get_stale_causes st k = [] then .FRESH else .STALE

/-- Terminal causes of one cause tree: its children when it has any, itself
otherwise. -/
def causeLeaves (c : StaleCause) : List StaleCauseBase :=
  if c.children = [] then [c.base] else c.children

/-- Modelled from the spec: root causes — the terminal causes of every
immediate cause. -/
def get_stale_root_causes (st : StaleState) (k : String) : List StaleCauseBase :=
  (get_stale_causes st k).flatMap causeLeaves

/-- C10: when the latest record of an asset exists but carries no provenance
metadata, the status is FRESH — neither MISSING nor STALE — and the stale
root causes are empty. -/
theorem no_provenance_fresh (st : StaleState) (k : String) (r : Record)
    (hrec : latestRecord st k = some r) (hprov : r.provenance = none) :
    get_status st k = .FRESH ∧ get_stale_root_causes st k = [] := by
  have hcauses : get_stale_causes st k = [] := by
    rw [get_stale_causes, hrec]
    cases hfind : findAsset st k with
    | none => rfl
    | some a => simp [hprov]
  constructor
  · rw [get_status, hrec, if_pos hcauses]
  · rw [get_stale_root_causes, hcauses]
    rfl

/-- The state of `test_no_provenance_stale_status`: asset `foo` depends on
source `bar`; the only event for `foo` is a materialization stored without
provenance. -/
def noProvState : StaleState :=
  ⟨[⟨"foo", none, [⟨"bar", 1⟩]⟩, ⟨"bar", none, []⟩],
   [("foo", ⟨"v", 1, none⟩)], 100⟩

theorem no_provenance_fresh_witness :
    get_status noProvState "foo" = .FRESH ∧
    get_stale_root_causes noProvState "foo" = [] :=
  no_provenance_fresh noProvState "foo" ⟨"v", 1, none⟩ rfl rfl

end Dagster

namespace Dagster

/-- Under the single-dependency frame — downstream without a declared code
version, one upstream edge, provenance recording exactly that upstream — the
stale causes reduce to that dependency's data cause. -/
theorem single_dep_causes (st : StaleState) (dk uk : String) (aD : AssetNode)
    (rD : Record) (prov : Provenance) (c : Nat) (v : String)
    (hfd : findAsset st dk = some aD)
    (hld : latestRecord st dk = some rD)
    (hdeps : aD.deps = [⟨uk, c⟩])
    (hprov : rD.provenance = some prov)
    (hcode : aD.codeVersion = none)
    (hpin : prov.inputDataVersions = [(uk, v)]) :
    get_stale_causes st dk = depDataCause st aD prov ⟨uk, c⟩ := by
  rw [get_stale_causes, hfd, hld]
  simp only [hprov]
  rw [codeCauses, hcode]
  simp [depAddedRemovedCauses, hpin, hdeps]

/-- C7: with a materialized downstream whose single upstream dependency is
below the partition threshold and whose provenance records that upstream's
data version and storage id: if the upstream declares no code version, any
rematerialization of the upstream (a new storage id) makes the downstream
STALE even when the upstream's current data version equals the recorded one;
if instead the upstream is code-version-pinned and its current data version
equals the recorded one, the downstream stays FRESH. -/
theorem unversioned_upstream_staleness (st : StaleState) (dk uk : String)
    (aD aU : AssetNode) (rD rU : Record) (prov : Provenance) (c : Nat)
    (v : String) (sid : Nat)
    (hfd : findAsset st dk = some aD) (hfu : findAsset st uk = some aU)
    (hld : latestRecord st dk = some rD) (hlu : latestRecord st uk = some rU)
    (hdeps : aD.deps = [⟨uk, c⟩]) (hc : c < st.threshold)
    (hprov : rD.provenance = some prov)
    (hcode : aD.codeVersion = none)
    (hpin : prov.inputDataVersions = [(uk, v)])
    (hpis : prov.inputStorageIds = [(uk, sid)])
    (hdv : rU.dataVersion = v) :
    (aU.codeVersion = none → rU.storageId ≠ sid → get_status st dk = .STALE) ∧
    (∀ cv, aU.codeVersion = some cv → get_status st dk = .FRESH) := by
  have hsc := single_dep_causes st dk uk aD rD prov c v hfd hld hdeps hprov hcode hpin
  have hnth : ¬st.threshold ≤ (⟨uk, c⟩ : DepEdge).partitionsCount := by
    simpa using (by omega : ¬st.threshold ≤ c)
  constructor
  · intro hun hsid
    have hdd : depDataCause st aD prov ⟨uk, c⟩ =
        [⟨⟨aD.key, .DATA, "has a new dependency materialization", some uk⟩,
          [⟨uk, .DATA, "has a new materialization", none⟩]⟩] := by
      rw [depDataCause, if_neg hnth]
      simp [hlu, hfu, hpin, hpis, List.lookup, hun, hsid]
    rw [get_status, hld]
    simp [hsc, hdd]
  · intro cv hcv
    have hdd : depDataCause st aD prov ⟨uk, c⟩ = [] := by
      rw [depDataCause, if_neg hnth]
      simp [hlu, hfu, hpin, hpis, List.lookup, hcv, hdv]
    rw [get_status, hld]
    simp [hsc, hdd]

/-- State mirroring `test_stale_status_no_code_versions` after the unversioned
upstream is rematerialized: the downstream's provenance recorded storage id 1,
the upstream's latest record has storage id 2 and the same data version. -/
def unversionedState : StaleState :=
  ⟨[⟨"asset1", none, []⟩, ⟨"asset2", none, [⟨"asset1", 1⟩]⟩],
   [("asset1", ⟨"v", 2, some ⟨none, [], []⟩⟩),
    ("asset2", ⟨"w", 1, some ⟨none, [("asset1", "v")], [("asset1", 1)]⟩⟩)], 100⟩

/-- State mirroring `test_stale_status_redundant_upstream_materialization`:
the upstream is pinned to code version `abc` and its rematerialization kept
the same data version. -/
def pinnedState : StaleState :=
  ⟨[⟨"asset1", some "abc", []⟩, ⟨"asset2", none, [⟨"asset1", 1⟩]⟩],
   [("asset1", ⟨"v", 2, some ⟨some "abc", [], []⟩⟩),
    ("asset2", ⟨"w", 1, some ⟨none, [("asset1", "v")], [("asset1", 1)]⟩⟩)], 100⟩

theorem unversioned_upstream_staleness_witness :
    get_status unversionedState "asset2" = .STALE ∧
    get_status pinnedState "asset2" = .FRESH := by
  constructor
  · exact (unversioned_upstream_staleness unversionedState "asset2" "asset1"
      ⟨"asset2", none, [⟨"asset1", 1⟩]⟩ ⟨"asset1", none, []⟩
      ⟨"w", 1, some ⟨none, [("asset1", "v")], [("asset1", 1)]⟩⟩
      ⟨"v", 2, some ⟨none, [], []⟩⟩
      ⟨none, [("asset1", "v")], [("asset1", 1)]⟩ 1 "v" 1
      rfl rfl rfl rfl rfl (by decide) rfl rfl rfl rfl rfl).1 rfl (by decide)
  · exact (unversioned_upstream_staleness pinnedState "asset2" "asset1"
      ⟨"asset2", none, [⟨"asset1", 1⟩]⟩ ⟨"asset1", some "abc", []⟩
      ⟨"w", 1, some ⟨none, [("asset1", "v")], [("asset1", 1)]⟩⟩
      ⟨"v", 2, some ⟨some "abc", [], []⟩⟩
      ⟨none, [("asset1", "v")], [("asset1", 1)]⟩ 1 "v" 1
      rfl rfl rfl rfl rfl (by decide) rfl rfl rfl rfl rfl).2 "abc" rfl

/-- C8 amended theorem: with a code-versioned upstream whose current data
version differs from the downstream's recorded provenance value, the
downstream is STALE when the number of partitions involved is strictly below
the configured threshold, and FRESH — the check is skipped — when the count
is at or above the threshold. -/
theorem threshold_skip (st : StaleState) (dk uk : String)
    (aD aU : AssetNode) (rD rU : Record) (prov : Provenance) (c : Nat)
    (v : String) (sid : Nat) (cv : String)
    (hfd : findAsset st dk = some aD) (hfu : findAsset st uk = some aU)
    (hld : latestRecord st dk = some rD) (hlu : latestRecord st uk = some rU)
    (hdeps : aD.deps = [⟨uk, c⟩])
    (hprov : rD.provenance = some prov)
    (hcode : aD.codeVersion = none)
    (hpin : prov.inputDataVersions = [(uk, v)])
    (hpis : prov.inputStorageIds = [(uk, sid)])
    (hcv : aU.codeVersion = some cv)
    (hchanged : rU.dataVersion ≠ v) :
    (c < st.threshold → get_status st dk = .STALE) ∧
    (st.threshold ≤ c → get_status st dk = .FRESH) := by
  have hsc := single_dep_causes st dk uk aD rD prov c v hfd hld hdeps hprov hcode hpin
  constructor
  · intro hlt
    have hnth : ¬st.threshold ≤ (⟨uk, c⟩ : DepEdge).partitionsCount := by
      simpa using (by omega : ¬st.threshold ≤ c)
    have hdd : depDataCause st aD prov ⟨uk, c⟩ =
        [⟨⟨aD.key, .DATA, "has a new dependency data version", some uk⟩,
          [⟨uk, .DATA, "has a new data version", none⟩]⟩] := by
      rw [depDataCause, if_neg hnth]
      simp [hlu, hfu, hpin, hpis, List.lookup, hcv, hchanged]
    rw [get_status, hld]
    simp [hsc, hdd]
  · intro hge
    have hth : st.threshold ≤ (⟨uk, c⟩ : DepEdge).partitionsCount := by
      simpa using hge
    have hdd : depDataCause st aD prov ⟨uk, c⟩ = [] := by
      rw [depDataCause, if_pos hth]
    rw [get_status, hld]
    simp [hsc, hdd]

/-- State with the dependency partition count exactly at the threshold (3)
and a changed upstream data version (`v2` now, `v1` recorded). -/
def thresholdBoundaryState : StaleState :=
  ⟨[⟨"up", some "1", []⟩, ⟨"down", none, [⟨"up", 3⟩]⟩],
   [("up", ⟨"v2", 2, some ⟨some "1", [], []⟩⟩),
    ("down", ⟨"w", 1, some ⟨none, [("up", "v1")], [("up", 1)]⟩⟩)], 3⟩

/-- The same state with the count (2) strictly below the threshold. -/
def underThresholdState : StaleState :=
  ⟨[⟨"up", some "1", []⟩, ⟨"down", none, [⟨"up", 2⟩]⟩],
   [("up", ⟨"v2", 2, some ⟨some "1", [], []⟩⟩),
    ("down", ⟨"w", 1, some ⟨none, [("up", "v1")], [("up", 1)]⟩⟩)], 3⟩

/-- C8 counterexample: with the number of partitions involved equal to the
configured threshold and the upstream's current data version differing from
the recorded provenance value, the resolver reports FRESH — the dependency
check is skipped already at the threshold, where the claim (count at or under
the threshold is checked) predicts STALE. -/
theorem threshold_boundary_counterexample :
    thresholdBoundaryState.threshold = 3 ∧
    (∃ a, findAsset thresholdBoundaryState "down" = some a ∧
      a.deps = [⟨"up", 3⟩]) ∧
    (latestRecord thresholdBoundaryState "up").map Record.dataVersion = some "v2" ∧
    ((latestRecord thresholdBoundaryState "down").bind Record.provenance).map
        Provenance.inputDataVersions = some [("up", "v1")] ∧
    get_status thresholdBoundaryState "down" = .FRESH := by
  refine ⟨rfl, ⟨⟨"down", none, [⟨"up", 3⟩]⟩, rfl, rfl⟩, rfl, rfl, ?_⟩
  decide

theorem threshold_skip_witness :
    get_status underThresholdState "down" = .STALE ∧
    get_status thresholdBoundaryState "down" = .FRESH := by
  constructor
  · exact (threshold_skip underThresholdState "down" "up"
      ⟨"down", none, [⟨"up", 2⟩]⟩ ⟨"up", some "1", []⟩
      ⟨"w", 1, some ⟨none, [("up", "v1")], [("up", 1)]⟩⟩
      ⟨"v2", 2, some ⟨some "1", [], []⟩⟩
      ⟨none, [("up", "v1")], [("up", 1)]⟩ 2 "v1" 1 "1"
      rfl rfl rfl rfl rfl rfl rfl rfl rfl rfl (by decide)).1 (by decide)
  · exact (threshold_skip thresholdBoundaryState "down" "up"
      ⟨"down", none, [⟨"up", 3⟩]⟩ ⟨"up", some "1", []⟩
      ⟨"w", 1, some ⟨none, [("up", "v1")], [("up", 1)]⟩⟩
      ⟨"v2", 2, some ⟨some "1", [], []⟩⟩
      ⟨none, [("up", "v1")], [("up", 1)]⟩ 3 "v1" 1 "1"
      rfl rfl rfl rfl rfl rfl rfl rfl rfl rfl (by decide)).2 (by decide)

end Dagster
